import Mathlib

set_option maxRecDepth 10000
set_option maxHeartbeats 2000000

/-!
Verification of a Lamport-style one-time hash-based signature scheme and its
key-reuse forgery engine.  The Go source is embedded shallowly: 32-byte arrays
become functions `Fin 32 → Nat` (each entry a byte), 256-entry block arrays
become functions `Fin 256 → Block`, and the SHA-256 block hash is an abstract
parameter `Hash : Block → Block` of every definition that hashes.  Loops that
assign array cells become `List.foldl` over `List.finRange` with
`Function.update`; the `panic` on inconsistent input in the coverage builder
becomes an `Option` result (`none` = abort).
-/

namespace LamportSig

/-- Number of bits in a message digest (`MESSAGE_BITS` in the source). -/
def MESSAGE_BITS : Nat := 256

/-- Number of bytes in a message digest (`MESSAGE_BYTES` in the source). -/
def MESSAGE_BYTES : Nat := MESSAGE_BITS / 8

/-- A 32-byte value (`type Block [32]byte`); entry `j` is the byte at index `j`. -/
abbrev Block : Type := Fin 32 → Nat

/-- A 32-byte message digest (`type Message [32]byte`). -/
abbrev Message : Type := Fin 32 → Nat

/-- `type PublicKey struct { ZeroHash, OneHash [256]Block }` -/
structure PublicKey where
  ZeroHash : Fin 256 → Block
  OneHash : Fin 256 → Block

/-- `type PrivateKey struct { ZeroHash, OneHash [256]Block }` -/
structure PrivateKey where
  ZeroHash : Fin 256 → Block
  OneHash : Fin 256 → Block

/-- `type Signature struct { Preimage [256]Block }` -/
structure Signature where
  Preimage : Fin 256 → Block

/-- The all-zero block (`var bl Block` zero value in Go). -/
def zeroBlock : Block := fun _ => 0

/-- The byte index holding bit `i` of a 32-byte array: `i/8`. -/
def byteIdx (i : Fin 256) : Fin 32 :=
  ⟨(i : Nat) / 8, by have := i.isLt; omega⟩

/-- Canonical bit read of a 32-byte array: `(arr[i/8] >> (7-(i%8))) & 0x01`,
MSB-first.  This is the indexing contract the source documents and uses. -/
def arrBit (a : Message) (i : Fin 256) : Nat :=
  a (byteIdx i) >>> (7 - (i : Nat) % 8) &&& 1

/-- The flat bit position built from a byte index and a bit offset, `i*8 + j`. -/
def bitPos (i : Fin 32) (j : Fin 8) : Fin 256 :=
  ⟨(i : Nat) * 8 + (j : Nat), by have := i.isLt; have := j.isLt; omega⟩

/-- `GetPublicKey` from the source: hash every private block pointwise.
`Hash` is the abstract block hash (SHA-256 in the source). -/
def GetPublicKey (Hash : Block → Block) (pri : PrivateKey) : PublicKey :=
  { ZeroHash := fun i => Hash (pri.ZeroHash i)
    OneHash := fun i => Hash (pri.OneHash i) }

/-- `Sign` from the source: iterate over message bytes `i` and bit offsets `j`,
extract bit `b >> (7-j) & 1` and write `pri.ZeroHash[i*8+j]` or
`pri.OneHash[i*8+j]` into the preimage array (initially the zero value). -/
def Sign (msg : Message) (pri : PrivateKey) : Signature :=
  Signature.mk <|
    (List.finRange 32).foldl
      (fun pre (i : Fin 32) =>
        (List.finRange 8).foldl
          (fun pre (j : Fin 8) =>
            if msg i >>> (7 - (j : Nat)) &&& 1 = 0 then
              Function.update pre (bitPos i j) (pri.ZeroHash (bitPos i j))
            else
              Function.update pre (bitPos i j) (pri.OneHash (bitPos i j)))
          pre)
      (fun _ => zeroBlock)

/-- `Verify` from the source: for every byte `i` and bit offset `j`, hash the
signature block at `i*8+j` and compare with the zero- or one-half of the
public key according to the message bit; false on any mismatch. -/
def Verify (Hash : Block → Block) (msg : Message) (pub : PublicKey)
    (sig : Signature) : Bool :=
  (List.finRange 32).all fun i =>
    (List.finRange 8).all fun j =>
      if msg i >>> (7 - (j : Nat)) &&& 1 = 0 then
        decide (Hash (sig.Preimage (bitPos i j)) = pub.ZeroHash (bitPos i j))
      else
        decide (Hash (sig.Preimage (bitPos i j)) = pub.OneHash (bitPos i j))

/-- The value `Sign` is specified to place at bit position `k`. -/
def signVal (msg : Message) (pri : PrivateKey) (k : Fin 256) : Block :=
  if msg (byteIdx k) >>> (7 - (k : Nat) % 8) &&& 1 = 0 then pri.ZeroHash k
  else pri.OneHash k

lemma bitPos_byteIdx (i : Fin 32) (j : Fin 8) : byteIdx (bitPos i j) = i := by
  apply Fin.ext
  simp only [byteIdx, bitPos]
  have := j.isLt
  omega

lemma bitPos_mod (i : Fin 32) (j : Fin 8) : ((bitPos i j : Nat)) % 8 = (j : Nat) := by
  simp only [bitPos]
  have := j.isLt
  omega

lemma byteIdx_bitPos_self (k : Fin 256) :
    bitPos (byteIdx k) ⟨(k : Nat) % 8, Nat.mod_lt _ (by omega)⟩ = k := by
  apply Fin.ext
  simp only [bitPos, byteIdx]
  omega

lemma bitPos_inj_j {i : Fin 32} {j j' : Fin 8} (h : bitPos i j = bitPos i j') :
    j = j' := by
  apply Fin.ext
  have := congrArg Fin.val h
  simp only [bitPos] at this
  omega

lemma sign_inner_not_mem (msg : Message) (pri : PrivateKey) (i : Fin 32)
    (l : List (Fin 8)) (pre : Fin 256 → Block) (k : Fin 256)
    (hk : ∀ j ∈ l, bitPos i j ≠ k) :
    (l.foldl
      (fun pre (j : Fin 8) =>
        if msg i >>> (7 - (j : Nat)) &&& 1 = 0 then
          Function.update pre (bitPos i j) (pri.ZeroHash (bitPos i j))
        else
          Function.update pre (bitPos i j) (pri.OneHash (bitPos i j)))
      pre) k = pre k := by
  induction l generalizing pre with
  | nil => rfl
  | cons a t ih =>
      rw [List.foldl_cons, ih _ (fun j hj => hk j (List.mem_cons_of_mem a hj))]
      have hne : k ≠ bitPos i a := fun h => hk a (List.mem_cons_self a t) h.symm
      split <;> exact Function.update_noteq hne _ _

lemma sign_inner_mem (msg : Message) (pri : PrivateKey) (i : Fin 32)
    (l : List (Fin 8)) (hl : l.Nodup) (pre : Fin 256 → Block) (k : Fin 256)
    (j0 : Fin 8) (hj0 : j0 ∈ l) (hk : bitPos i j0 = k) :
    (l.foldl
      (fun pre (j : Fin 8) =>
        if msg i >>> (7 - (j : Nat)) &&& 1 = 0 then
          Function.update pre (bitPos i j) (pri.ZeroHash (bitPos i j))
        else
          Function.update pre (bitPos i j) (pri.OneHash (bitPos i j)))
      pre) k = signVal msg pri k := by
  induction l generalizing pre with
  | nil => cases hj0
  | cons a t ih =>
      rw [List.foldl_cons]
      rcases List.mem_cons.mp hj0 with h | h
      · subst h
        have ht : ∀ j ∈ t, bitPos i j ≠ k := by
          intro j hj he
          have : j = j0 := bitPos_inj_j (he.trans hk.symm)
          subst this
          exact (List.nodup_cons.mp hl).1 hj
        rw [sign_inner_not_mem msg pri i t _ k ht]
        subst hk
        have hbv : signVal msg pri (bitPos i j0) =
            if msg i >>> (7 - (j0 : Nat)) &&& 1 = 0 then pri.ZeroHash (bitPos i j0)
            else pri.OneHash (bitPos i j0) := by
          simp only [signVal, bitPos_byteIdx, bitPos_mod]
        rw [hbv]
        split <;> rw [Function.update_same]
      · exact ih (List.nodup_cons.mp hl).2 _ h

lemma sign_outer_not_mem (msg : Message) (pri : PrivateKey)
    (l : List (Fin 32)) (pre : Fin 256 → Block) (k : Fin 256)
    (hk : byteIdx k ∉ l) :
    (l.foldl
      (fun pre (i : Fin 32) =>
        (List.finRange 8).foldl
          (fun pre (j : Fin 8) =>
            if msg i >>> (7 - (j : Nat)) &&& 1 = 0 then
              Function.update pre (bitPos i j) (pri.ZeroHash (bitPos i j))
            else
              Function.update pre (bitPos i j) (pri.OneHash (bitPos i j)))
          pre)
      pre) k = pre k := by
  induction l generalizing pre with
  | nil => rfl
  | cons a t ih =>
      rw [List.foldl_cons, ih _ (fun h => hk (List.mem_cons_of_mem a h))]
      apply sign_inner_not_mem
      intro j _ he
      apply hk
      have : byteIdx k = a := by rw [← he, bitPos_byteIdx]
      rw [this]
      exact List.mem_cons_self a t

lemma sign_outer_mem (msg : Message) (pri : PrivateKey)
    (l : List (Fin 32)) (hl : l.Nodup) (pre : Fin 256 → Block) (k : Fin 256)
    (hi : byteIdx k ∈ l) :
    (l.foldl
      (fun pre (i : Fin 32) =>
        (List.finRange 8).foldl
          (fun pre (j : Fin 8) =>
            if msg i >>> (7 - (j : Nat)) &&& 1 = 0 then
              Function.update pre (bitPos i j) (pri.ZeroHash (bitPos i j))
            else
              Function.update pre (bitPos i j) (pri.OneHash (bitPos i j)))
          pre)
      pre) k = signVal msg pri k := by
  induction l generalizing pre with
  | nil => cases hi
  | cons a t ih =>
      rw [List.foldl_cons]
      by_cases hak : byteIdx k = a
      · have hnt : byteIdx k ∉ t := by
          rw [hak]; exact (List.nodup_cons.mp hl).1
        rw [sign_outer_not_mem msg pri t _ k hnt]
        exact sign_inner_mem msg pri a (List.finRange 8) (List.nodup_finRange 8) _ k
          ⟨(k : Nat) % 8, Nat.mod_lt _ (by omega)⟩ (List.mem_finRange _)
          (by rw [← hak]; exact byteIdx_bitPos_self k)
      · rcases List.mem_cons.mp hi with h | h
        · exact absurd h hak
        · exact ih (List.nodup_cons.mp hl).2 _ h

/-- Pointwise characterisation of `Sign`: block `k` of the produced signature. -/
lemma Sign_apply (msg : Message) (pri : PrivateKey) (k : Fin 256) :
    (Sign msg pri).Preimage k = signVal msg pri k :=
  sign_outer_mem msg pri (List.finRange 32) (List.nodup_finRange 32) _ k
    (List.mem_finRange _)

/-- `Verify` succeeds exactly when every position's hash matches the half of the
public key selected by the canonical message bit. -/
lemma Verify_eq_true_iff (Hash : Block → Block) (msg : Message) (pub : PublicKey)
    (sig : Signature) :
    Verify Hash msg pub sig = true ↔
      ∀ k : Fin 256,
        if arrBit msg k = 0 then Hash (sig.Preimage k) = pub.ZeroHash k
        else Hash (sig.Preimage k) = pub.OneHash k := by
  constructor
  · intro h k
    have h1 := (List.all_eq_true.mp h) (byteIdx k) (List.mem_finRange _)
    have h2 := (List.all_eq_true.mp h1)
      ⟨(k : Nat) % 8, Nat.mod_lt _ (by omega)⟩ (List.mem_finRange _)
    rw [byteIdx_bitPos_self k] at h2
    have h2' : (if arrBit msg k = 0
        then decide (Hash (sig.Preimage k) = pub.ZeroHash k)
        else decide (Hash (sig.Preimage k) = pub.OneHash k)) = true := h2
    by_cases hb : arrBit msg k = 0
    · rw [if_pos hb] at h2' ⊢
      exact of_decide_eq_true h2'
    · rw [if_neg hb] at h2' ⊢
      exact of_decide_eq_true h2'
  · intro h
    apply List.all_eq_true.mpr
    intro i _
    apply List.all_eq_true.mpr
    intro j _
    have hb : arrBit msg (bitPos i j) = msg i >>> (7 - (j : Nat)) &&& 1 := by
      rw [arrBit, bitPos_byteIdx, bitPos_mod]
    have h' := h (bitPos i j)
    rw [hb] at h'
    by_cases hc : msg i >>> (7 - (j : Nat)) &&& 1 = 0
    · rw [if_pos hc] at h' ⊢
      exact decide_eq_true h'
    · rw [if_neg hc] at h' ⊢
      exact decide_eq_true h'

/-- Claim C3: `Sign` returns the signature whose block at every index `k` in
`[0,256)` is `pri.ZeroHash[k]` if bit `k` of the message is 0 and
`pri.OneHash[k]` if it is 1, where bit `k` is `(m[k/8] >> (7 - k%8)) & 1`
(MSB-first, bit 0 the most significant bit of byte 0). -/
theorem C3_sign_selects_by_canonical_bit (msg : Message) (pri : PrivateKey)
    (k : Fin 256) :
    (Sign msg pri).Preimage k =
      if msg (byteIdx k) >>> (7 - (k : Nat) % 8) &&& 1 = 0 then pri.ZeroHash k
      else pri.OneHash k :=
  Sign_apply msg pri k

/-- Claim C1: for every private key and its derived public key, and every
message, `Verify msg pub (Sign msg pri)` returns `true`. -/
theorem C1_verify_of_sign (Hash : Block → Block) (pri : PrivateKey)
    (msg : Message) :
    Verify Hash msg (GetPublicKey Hash pri) (Sign msg pri) = true := by
  rw [Verify_eq_true_iff]
  intro k
  rw [Sign_apply msg pri k]
  by_cases hb : arrBit msg k = 0
  · rw [if_pos hb]
    have hb' : msg (byteIdx k) >>> (7 - (k : Nat) % 8) &&& 1 = 0 := hb
    simp only [signVal, if_pos hb']
    rfl
  · rw [if_neg hb]
    have hb' : ¬ msg (byteIdx k) >>> (7 - (k : Nat) % 8) &&& 1 = 0 := hb
    simp only [signVal, if_neg hb']
    rfl

lemma shiftRight_and_one_eq_one {x s : Nat} :
    x >>> s &&& 1 = 1 ↔ x.testBit s = true := by
  rw [Nat.and_one_is_mod, Nat.shiftRight_eq_div_pow, Nat.testBit_to_div_mod,
    decide_eq_true_eq]

lemma shiftRight_and_one_eq_zero {x s : Nat} :
    x >>> s &&& 1 = 0 ↔ x.testBit s = false := by
  rw [Nat.and_one_is_mod, Nat.shiftRight_eq_div_pow, Nat.testBit_to_div_mod,
    decide_eq_false_iff_not]
  omega

lemma shiftRight_and_one_congr {x y s : Nat} (h : x.testBit s = y.testBit s) :
    x >>> s &&& 1 = y >>> s &&& 1 := by
  cases hx : x.testBit s with
  | false =>
      rw [shiftRight_and_one_eq_zero.mpr hx,
        shiftRight_and_one_eq_zero.mpr (h.symm.trans hx)]
  | true =>
      rw [shiftRight_and_one_eq_one.mpr hx,
        shiftRight_and_one_eq_one.mpr (h.symm.trans hx)]

lemma arrBit_eq_one_iff {a : Message} {k : Fin 256} :
    arrBit a k = 1 ↔ (a (byteIdx k)).testBit (7 - (k : Nat) % 8) = true :=
  shiftRight_and_one_eq_one

lemma arrBit_eq_zero_iff {a : Message} {k : Fin 256} :
    arrBit a k = 0 ↔ (a (byteIdx k)).testBit (7 - (k : Nat) % 8) = false :=
  shiftRight_and_one_eq_zero

lemma arrBit_lt_two (a : Message) (k : Fin 256) : arrBit a k < 2 := by
  rw [arrBit, Nat.and_one_is_mod]
  omega

/-- Coverage state accumulated by the tracker inside `Forge`: two 256-bit
bitmaps stored as 32-byte arrays plus the two caches of revealed preimages. -/
structure Coverage where
  zeroUsed : Message
  oneUsed : Message
  zeroUsedSigs : Fin 256 → Block
  oneUsedSigs : Fin 256 → Block

/-- The zero values `Message{}` / `[256]Block{}` the tracker starts from. -/
def initCoverage : Coverage :=
  { zeroUsed := fun _ => 0
    oneUsed := fun _ => 0
    zeroUsedSigs := fun _ => zeroBlock
    oneUsedSigs := fun _ => zeroBlock }

/-- `m[i/8] |= 0x01 << (7 - (i % 8))`: set canonical bit `i` of a bitmap. -/
def setBitAt (m : Message) (i : Fin 256) : Message :=
  Function.update m (byteIdx i) (m (byteIdx i) ||| 1 <<< (7 - (i : Nat) % 8))

lemma arrBit_setBitAt_self (m : Message) (i : Fin 256) :
    arrBit (setBitAt m i) i = 1 := by
  rw [arrBit_eq_one_iff, setBitAt, Function.update_same, Nat.testBit_or,
    Nat.one_shiftLeft, Nat.testBit_two_pow_self, Bool.or_true]

lemma arrBit_setBitAt_ne (m : Message) {i j : Fin 256} (h : j ≠ i) :
    arrBit (setBitAt m i) j = arrBit m j := by
  by_cases hb : byteIdx j = byteIdx i
  · have hoff : (7 : Nat) - (i : Nat) % 8 ≠ 7 - (j : Nat) % 8 := by
      have hj8 : (j : Nat) % 8 ≠ (i : Nat) % 8 := by
        intro he
        apply h
        apply Fin.ext
        have hq := congrArg Fin.val hb
        simp only [byteIdx] at hq
        omega
      have := Nat.mod_lt (i : Nat) (y := 8) (by omega)
      have := Nat.mod_lt (j : Nat) (y := 8) (by omega)
      omega
    rw [arrBit, arrBit, setBitAt, hb, Function.update_same]
    apply shiftRight_and_one_congr
    rw [Nat.one_shiftLeft, Nat.testBit_or, Nat.testBit_two_pow_of_ne hoff,
      Bool.or_false]
  · rw [arrBit, arrBit, setBitAt, Function.update_noteq hb]

lemma setBitAt_lt (m : Message) (i : Fin 256) (hm : ∀ b, m b < 256) :
    ∀ b, setBitAt m i b < 256 := by
  intro b
  by_cases hb : b = byteIdx i
  · subst hb
    rw [setBitAt, Function.update_same]
    have h1 : m (byteIdx i) < 2 ^ 8 := by
      have := hm (byteIdx i); norm_num
      exact this
    have h2 : 1 <<< (7 - (i : Nat) % 8) < 2 ^ 8 := by
      rw [Nat.one_shiftLeft]
      calc 2 ^ (7 - (i : Nat) % 8) ≤ 2 ^ 7 :=
            Nat.pow_le_pow_right (by omega) (by omega)
        _ < 2 ^ 8 := by norm_num
    have := Nat.or_lt_two_pow h1 h2
    norm_num at this
    exact this
  · rw [setBitAt, Function.update_noteq hb]
    exact hm b

/-- One position of the coverage loop inside `Forge`: hash the revealed block,
classify it against the zero half first, then the one half, else fail (the
source panics with "no match"; the failure is modelled as `none`). -/
def coverStep (Hash : Block → Block) (pub : PublicKey) (sig : Signature)
    (cov : Coverage) (i : Fin 256) : Option Coverage :=
  let hash := Hash (sig.Preimage i)
  if pub.ZeroHash i = hash then
    some { cov with
      zeroUsed := setBitAt cov.zeroUsed i
      zeroUsedSigs := Function.update cov.zeroUsedSigs i (sig.Preimage i) }
  else if pub.OneHash i = hash then
    some { cov with
      oneUsed := setBitAt cov.oneUsed i
      oneUsedSigs := Function.update cov.oneUsedSigs i (sig.Preimage i) }
  else none

/-- Process one signature: fold `coverStep` over all 256 bit positions. -/
def coverSig (Hash : Block → Block) (pub : PublicKey) (cov : Coverage)
    (sig : Signature) : Option Coverage :=
  (List.finRange 256).foldlM (coverStep Hash pub sig) cov

/-- The coverage tracker of `Forge`: fold all signatures over the zero state
(`BuildCoverage` in the specification). -/
def BuildCoverage (Hash : Block → Block) (pub : PublicKey)
    (sigs : List Signature) : Option Coverage :=
  sigs.foldlM (coverSig Hash pub) initCoverage

/-- Per-position observables of the coverage state are unchanged. -/
def sameObs (cov cov' : Coverage) (k : Fin 256) : Prop :=
  arrBit cov'.zeroUsed k = arrBit cov.zeroUsed k ∧
  arrBit cov'.oneUsed k = arrBit cov.oneUsed k ∧
  cov'.zeroUsedSigs k = cov.zeroUsedSigs k ∧
  cov'.oneUsedSigs k = cov.oneUsedSigs k

/-- Effect of processing one signature on the observables at position `k`:
the zero half is checked first, the one half only on zero-mismatch. -/
def stepObs (Hash : Block → Block) (pub : PublicKey) (sig : Signature)
    (cov cov' : Coverage) (k : Fin 256) : Prop :=
  if pub.ZeroHash k = Hash (sig.Preimage k) then
    arrBit cov'.zeroUsed k = 1 ∧ arrBit cov'.oneUsed k = arrBit cov.oneUsed k ∧
    cov'.zeroUsedSigs k = sig.Preimage k ∧ cov'.oneUsedSigs k = cov.oneUsedSigs k
  else if pub.OneHash k = Hash (sig.Preimage k) then
    arrBit cov'.zeroUsed k = arrBit cov.zeroUsed k ∧ arrBit cov'.oneUsed k = 1 ∧
    cov'.zeroUsedSigs k = cov.zeroUsedSigs k ∧ cov'.oneUsedSigs k = sig.Preimage k
  else False

lemma sameObs_trans {c1 c2 c3 : Coverage} {k : Fin 256}
    (h1 : sameObs c1 c2 k) (h2 : sameObs c2 c3 k) : sameObs c1 c3 k :=
  ⟨h2.1.trans h1.1, h2.2.1.trans h1.2.1, h2.2.2.1.trans h1.2.2.1,
    h2.2.2.2.trans h1.2.2.2⟩

lemma stepObs_then_same {Hash : Block → Block} {pub : PublicKey}
    {sig : Signature} {c1 c2 c3 : Coverage} {k : Fin 256}
    (h1 : stepObs Hash pub sig c1 c2 k) (h2 : sameObs c2 c3 k) :
    stepObs Hash pub sig c1 c3 k := by
  rw [stepObs] at h1 ⊢
  obtain ⟨e1, e2, e3, e4⟩ := h2
  split at h1 <;> [skip; split at h1]
  · rw [if_pos (by assumption)]
    exact ⟨e1.trans h1.1, e2.trans h1.2.1, e3.trans h1.2.2.1, e4.trans h1.2.2.2⟩
  · rw [if_neg (by assumption), if_pos (by assumption)]
    exact ⟨e1.trans h1.1, e2.trans h1.2.1, e3.trans h1.2.2.1, e4.trans h1.2.2.2⟩
  · exact h1.elim

lemma same_then_stepObs {Hash : Block → Block} {pub : PublicKey}
    {sig : Signature} {c1 c2 c3 : Coverage} {k : Fin 256}
    (h1 : sameObs c1 c2 k) (h2 : stepObs Hash pub sig c2 c3 k) :
    stepObs Hash pub sig c1 c3 k := by
  rw [stepObs] at h2 ⊢
  obtain ⟨e1, e2, e3, e4⟩ := h1
  split at h2 <;> [skip; split at h2]
  · rw [if_pos (by assumption)]
    exact ⟨h2.1, h2.2.1.trans e2, h2.2.2.1, h2.2.2.2.trans e4⟩
  · rw [if_neg (by assumption), if_pos (by assumption)]
    exact ⟨h2.1.trans e1, h2.2.1, h2.2.2.1.trans e3, h2.2.2.2⟩
  · exact h2.elim

lemma coverStep_zero {Hash : Block → Block} {pub : PublicKey} {sig : Signature}
    {cov : Coverage} {i : Fin 256}
    (h0 : pub.ZeroHash i = Hash (sig.Preimage i)) :
    coverStep Hash pub sig cov i = some { cov with
      zeroUsed := setBitAt cov.zeroUsed i
      zeroUsedSigs := Function.update cov.zeroUsedSigs i (sig.Preimage i) } := by
  rw [coverStep]
  simp only [if_pos h0]

lemma coverStep_one {Hash : Block → Block} {pub : PublicKey} {sig : Signature}
    {cov : Coverage} {i : Fin 256}
    (h1 : pub.OneHash i = Hash (sig.Preimage i))
    (h0 : ¬ pub.ZeroHash i = Hash (sig.Preimage i)) :
    coverStep Hash pub sig cov i = some { cov with
      oneUsed := setBitAt cov.oneUsed i
      oneUsedSigs := Function.update cov.oneUsedSigs i (sig.Preimage i) } := by
  rw [coverStep]
  simp only [if_neg h0, if_pos h1]

lemma coverStep_match {Hash : Block → Block} {pub : PublicKey} {sig : Signature}
    {cov cov2 : Coverage} {i : Fin 256}
    (h : coverStep Hash pub sig cov i = some cov2) :
    pub.ZeroHash i = Hash (sig.Preimage i) ∨
      (pub.OneHash i = Hash (sig.Preimage i) ∧
        ¬ pub.ZeroHash i = Hash (sig.Preimage i)) := by
  by_cases h0 : pub.ZeroHash i = Hash (sig.Preimage i)
  · exact Or.inl h0
  · by_cases h1 : pub.OneHash i = Hash (sig.Preimage i)
    · exact Or.inr ⟨h1, h0⟩
    · rw [coverStep] at h
      simp only [if_neg h0, if_neg h1] at h
      exact Option.noConfusion h

lemma coverStep_sameObs {Hash : Block → Block} {pub : PublicKey}
    {sig : Signature} {cov cov2 : Coverage} {i k : Fin 256}
    (h : coverStep Hash pub sig cov i = some cov2) (hk : k ≠ i) :
    sameObs cov cov2 k := by
  rcases coverStep_match h with h0 | ⟨h1, h0⟩
  · rw [coverStep_zero h0] at h
    cases Option.some.inj h
    exact ⟨arrBit_setBitAt_ne _ hk, rfl, Function.update_noteq hk _ _, rfl⟩
  · rw [coverStep_one h1 h0] at h
    cases Option.some.inj h
    exact ⟨rfl, arrBit_setBitAt_ne _ hk, rfl, Function.update_noteq hk _ _⟩

lemma coverStep_stepObs {Hash : Block → Block} {pub : PublicKey}
    {sig : Signature} {cov cov2 : Coverage} {i : Fin 256}
    (h : coverStep Hash pub sig cov i = some cov2) :
    stepObs Hash pub sig cov cov2 i := by
  rcases coverStep_match h with h0 | ⟨h1, h0⟩
  · rw [coverStep_zero h0] at h
    cases Option.some.inj h
    rw [stepObs, if_pos h0]
    exact ⟨arrBit_setBitAt_self _ _, rfl, Function.update_same _ _ _, rfl⟩
  · rw [coverStep_one h1 h0] at h
    cases Option.some.inj h
    rw [stepObs, if_neg h0, if_pos h1]
    exact ⟨rfl, arrBit_setBitAt_self _ _, rfl, Function.update_same _ _ _⟩

lemma coverList_not_mem (Hash : Block → Block) (pub : PublicKey)
    (sig : Signature) (l : List (Fin 256)) :
    ∀ cov cov', l.foldlM (coverStep Hash pub sig) cov = some cov' →
      ∀ k, k ∉ l → sameObs cov cov' k := by
  induction l with
  | nil =>
      intro cov cov' h k _
      cases Option.some.inj h
      exact ⟨rfl, rfl, rfl, rfl⟩
  | cons a t ih =>
      intro cov cov' h k hk
      simp only [List.foldlM_cons, Option.bind_eq_bind] at h
      rcases Option.bind_eq_some.mp h with ⟨cov1, h1, h2⟩
      have hka : k ≠ a := fun he => hk (by rw [he]; exact List.mem_cons_self a t)
      have s1 := coverStep_sameObs h1 hka
      have s2 := ih cov1 cov' h2 k (fun ht => hk (List.mem_cons_of_mem a ht))
      exact sameObs_trans s1 s2

lemma coverList_mem (Hash : Block → Block) (pub : PublicKey) (sig : Signature)
    (l : List (Fin 256)) :
    ∀ cov cov', l.foldlM (coverStep Hash pub sig) cov = some cov' → l.Nodup →
      ∀ k, k ∈ l → stepObs Hash pub sig cov cov' k := by
  induction l with
  | nil =>
      intro cov cov' _ _ k hk
      cases hk
  | cons a t ih =>
      intro cov cov' h hnd k hk
      simp only [List.foldlM_cons, Option.bind_eq_bind] at h
      rcases Option.bind_eq_some.mp h with ⟨cov1, h1, h2⟩
      rcases List.mem_cons.mp hk with rfl | hkt
      · have e1 := coverStep_stepObs h1
        have s2 := coverList_not_mem Hash pub sig t cov1 cov' h2 k
          (List.nodup_cons.mp hnd).1
        exact stepObs_then_same e1 s2
      · have hka : k ≠ a := fun he => (List.nodup_cons.mp hnd).1 (he ▸ hkt)
        have s1 := coverStep_sameObs h1 hka
        have e2 := ih cov1 cov' h2 (List.nodup_cons.mp hnd).2 k hkt
        exact same_then_stepObs s1 e2

/-- Processing one signature successfully applies the classification effect at
every bit position. -/
lemma coverSig_stepObs {Hash : Block → Block} {pub : PublicKey}
    {cov cov' : Coverage} {sig : Signature}
    (h : coverSig Hash pub cov sig = some cov') (k : Fin 256) :
    stepObs Hash pub sig cov cov' k :=
  coverList_mem Hash pub sig (List.finRange 256) cov cov' h
    (List.nodup_finRange 256) k (List.mem_finRange k)

/-- Both bitmaps hold byte values. -/
def covLt (cov : Coverage) : Prop :=
  (∀ b, cov.zeroUsed b < 256) ∧ (∀ b, cov.oneUsed b < 256)

lemma coverStep_covLt {Hash : Block → Block} {pub : PublicKey} {sig : Signature}
    {cov cov2 : Coverage} {i : Fin 256}
    (h : coverStep Hash pub sig cov i = some cov2) (hc : covLt cov) :
    covLt cov2 := by
  rcases coverStep_match h with h0 | ⟨h1, h0⟩
  · rw [coverStep_zero h0] at h
    cases Option.some.inj h
    exact ⟨setBitAt_lt _ _ hc.1, hc.2⟩
  · rw [coverStep_one h1 h0] at h
    cases Option.some.inj h
    exact ⟨hc.1, setBitAt_lt _ _ hc.2⟩

lemma coverList_covLt (Hash : Block → Block) (pub : PublicKey) (sig : Signature)
    (l : List (Fin 256)) :
    ∀ cov cov', l.foldlM (coverStep Hash pub sig) cov = some cov' →
      covLt cov → covLt cov' := by
  induction l with
  | nil =>
      intro cov cov' h hc
      cases Option.some.inj h
      exact hc
  | cons a t ih =>
      intro cov cov' h hc
      simp only [List.foldlM_cons, Option.bind_eq_bind] at h
      rcases Option.bind_eq_some.mp h with ⟨cov1, h1, h2⟩
      exact ih cov1 cov' h2 (coverStep_covLt h1 hc)

lemma BuildCoverage_covLt {Hash : Block → Block} {pub : PublicKey} :
    ∀ (sigs : List Signature) (start cov : Coverage),
      sigs.foldlM (coverSig Hash pub) start = some cov → covLt start → covLt cov := by
  intro sigs
  induction sigs with
  | nil =>
      intro start cov h hc
      cases Option.some.inj h
      exact hc
  | cons s t ih =>
      intro start cov h hc
      simp only [List.foldlM_cons, Option.bind_eq_bind] at h
      rcases Option.bind_eq_some.mp h with ⟨cov1, h1, h2⟩
      exact ih cov1 cov h2 (coverList_covLt Hash pub s _ start cov1 h1 hc)

lemma initCoverage_covLt : covLt initCoverage :=
  ⟨fun _ => by show (0 : Nat) < 256; omega, fun _ => by show (0 : Nat) < 256; omega⟩

lemma buildCoverage_covLt {Hash : Block → Block} {pub : PublicKey}
    {sigs : List Signature} {cov : Coverage}
    (h : BuildCoverage Hash pub sigs = some cov) : covLt cov :=
  BuildCoverage_covLt sigs initCoverage cov h initCoverage_covLt

/-- Invariant tying a coverage state to the set of signatures folded in. -/
def covInv (Hash : Block → Block) (pub : PublicKey) (sigs : List Signature)
    (cov : Coverage) : Prop :=
  ∀ k : Fin 256,
    (arrBit cov.zeroUsed k = 1 ↔
      ∃ sig ∈ sigs, Hash (sig.Preimage k) = pub.ZeroHash k) ∧
    (arrBit cov.oneUsed k = 1 ↔
      ∃ sig ∈ sigs, Hash (sig.Preimage k) = pub.OneHash k ∧
        Hash (sig.Preimage k) ≠ pub.ZeroHash k) ∧
    (arrBit cov.zeroUsed k = 1 → Hash (cov.zeroUsedSigs k) = pub.ZeroHash k) ∧
    (arrBit cov.oneUsed k = 1 → Hash (cov.oneUsedSigs k) = pub.OneHash k ∧
      Hash (cov.oneUsedSigs k) ≠ pub.ZeroHash k)

lemma covInv_init (Hash : Block → Block) (pub : PublicKey) :
    covInv Hash pub [] initCoverage := by
  intro k
  have hz : arrBit (fun _ => (0 : Nat)) k = 0 := by
    rw [arrBit]
    simp
  refine ⟨?_, ?_, ?_, ?_⟩ <;> rw [initCoverage] <;> simp only [] <;> rw [hz] <;> simp

lemma covInv_step {Hash : Block → Block} {pub : PublicKey} {sigs : List Signature}
    {cov cov' : Coverage} {sig : Signature}
    (h : coverSig Hash pub cov sig = some cov')
    (hI : covInv Hash pub sigs cov) :
    covInv Hash pub (sigs ++ [sig]) cov' := by
  intro k
  have so := coverSig_stepObs h k
  rw [stepObs] at so
  obtain ⟨hz, ho, hzc, hoc⟩ := hI k
  by_cases h0 : pub.ZeroHash k = Hash (sig.Preimage k)
  · rw [if_pos h0] at so
    obtain ⟨z1, oeq, zs, os⟩ := so
    refine ⟨?_, ?_, ?_, ?_⟩
    · constructor
      · intro _
        exact ⟨sig, by simp, h0.symm⟩
      · intro _
        exact z1
    · rw [oeq, ho]
      constructor
      · rintro ⟨s', hs', hp⟩
        exact ⟨s', by simp [hs'], hp⟩
      · rintro ⟨s', hs', hp⟩
        rcases List.mem_append.mp hs' with hmem | hmem
        · exact ⟨s', hmem, hp⟩
        · have : s' = sig := List.mem_singleton.mp hmem
          subst this
          exact absurd h0.symm hp.2
    · intro _
      rw [zs]
      exact h0.symm
    · rw [oeq]
      intro h1
      rw [os]
      exact hoc h1
  · by_cases h1 : pub.OneHash k = Hash (sig.Preimage k)
    · rw [if_neg h0, if_pos h1] at so
      obtain ⟨zeq, o1, zs, os⟩ := so
      refine ⟨?_, ?_, ?_, ?_⟩
      · rw [zeq, hz]
        constructor
        · rintro ⟨s', hs', hp⟩
          exact ⟨s', by simp [hs'], hp⟩
        · rintro ⟨s', hs', hp⟩
          rcases List.mem_append.mp hs' with hmem | hmem
          · exact ⟨s', hmem, hp⟩
          · have : s' = sig := List.mem_singleton.mp hmem
            subst this
            exact absurd hp.symm h0
      · constructor
        · intro _
          exact ⟨sig, by simp, h1.symm, fun he => h0 he.symm⟩
        · intro _
          exact o1
      · rw [zeq]
        intro hh
        rw [zs]
        exact hzc hh
      · intro _
        rw [os]
        exact ⟨h1.symm, fun he => h0 he.symm⟩
    · rw [if_neg h0, if_neg h1] at so
      exact so.elim

lemma covInv_build {Hash : Block → Block} {pub : PublicKey} :
    ∀ (l : List Signature) (sigs0 : List Signature) (cov0 cov : Coverage),
      l.foldlM (coverSig Hash pub) cov0 = some cov →
      covInv Hash pub sigs0 cov0 → covInv Hash pub (sigs0 ++ l) cov := by
  intro l
  induction l with
  | nil =>
      intro sigs0 cov0 cov h hI
      cases Option.some.inj h
      rw [List.append_nil]
      exact hI
  | cons s t ih =>
      intro sigs0 cov0 cov h hI
      simp only [List.foldlM_cons, Option.bind_eq_bind] at h
      rcases Option.bind_eq_some.mp h with ⟨cov1, h1, h2⟩
      have hI1 := covInv_step h1 hI
      have := ih (sigs0 ++ [s]) cov1 cov h2 hI1
      rw [List.append_assoc, List.singleton_append] at this
      exact this

/-- A successful `BuildCoverage` run satisfies the coverage invariant. -/
lemma BuildCoverage_covInv {Hash : Block → Block} {pub : PublicKey}
    {sigs : List Signature} {cov : Coverage}
    (h : BuildCoverage Hash pub sigs = some cov) :
    covInv Hash pub sigs cov := by
  have := covInv_build sigs [] initCoverage cov h (covInv_init Hash pub)
  rw [List.nil_append] at this
  exact this

lemma coverList_success_match {Hash : Block → Block} {pub : PublicKey}
    {sig : Signature} (l : List (Fin 256)) :
    ∀ cov cov', l.foldlM (coverStep Hash pub sig) cov = some cov' →
      ∀ i ∈ l, pub.ZeroHash i = Hash (sig.Preimage i) ∨
        pub.OneHash i = Hash (sig.Preimage i) := by
  induction l with
  | nil =>
      intro _ _ _ i hi
      cases hi
  | cons a t ih =>
      intro cov cov' h i hi
      simp only [List.foldlM_cons, Option.bind_eq_bind] at h
      rcases Option.bind_eq_some.mp h with ⟨cov1, h1, h2⟩
      rcases List.mem_cons.mp hi with rfl | hit
      · rcases coverStep_match h1 with h0 | ⟨hone, _⟩
        · exact Or.inl h0
        · exact Or.inr hone
      · exact ih cov1 cov' h2 i hit

lemma build_success_match {Hash : Block → Block} {pub : PublicKey} :
    ∀ (sigs : List Signature) (start cov : Coverage),
      sigs.foldlM (coverSig Hash pub) start = some cov →
      ∀ sig ∈ sigs, ∀ i : Fin 256,
        pub.ZeroHash i = Hash (sig.Preimage i) ∨
          pub.OneHash i = Hash (sig.Preimage i) := by
  intro sigs
  induction sigs with
  | nil =>
      intro _ _ _ sig hs
      cases hs
  | cons s t ih =>
      intro start cov h sig hs i
      simp only [List.foldlM_cons, Option.bind_eq_bind] at h
      rcases Option.bind_eq_some.mp h with ⟨cov1, h1, h2⟩
      rcases List.mem_cons.mp hs with rfl | hst
      · exact coverList_success_match (List.finRange 256) start cov1 h1 i
          (List.mem_finRange i)
      · exact ih cov1 cov h2 sig hst i

/-- Claim C5: if any revealed block of any supplied signature hashes to neither
half of the public key at its position, the coverage build aborts with the
unrecoverable-error outcome (`none`, modelling the source's panic); it never
skips the preimage and continues. -/
theorem C5_mismatch_aborts (Hash : Block → Block) (pub : PublicKey)
    (sigs : List Signature)
    (h : ∃ sig ∈ sigs, ∃ i : Fin 256,
      Hash (sig.Preimage i) ≠ pub.ZeroHash i ∧
        Hash (sig.Preimage i) ≠ pub.OneHash i) :
    BuildCoverage Hash pub sigs = none := by
  cases hres : BuildCoverage Hash pub sigs with
  | none => rfl
  | some cov =>
      obtain ⟨sig, hmem, i, hz, ho⟩ := h
      rcases build_success_match sigs initCoverage cov hres sig hmem i with h0 | h1
      · exact absurd h0.symm hz
      · exact absurd h1.symm ho

/-- Claim C4 (amended): after a successful coverage build, `zeroUsed` bit `k`
is set iff some processed block at `k` hashes to `ZeroHash[k]`, and `oneUsed`
bit `k` is set iff some processed block at `k` hashes to `OneHash[k]` but not
to `ZeroHash[k]` (the zero half is tested first); the cached blocks hash to
the matching public halves.  Classification never consults the originating
messages, which do not even appear as inputs of the build. -/
theorem C4_coverage_characterisation (Hash : Block → Block) (pub : PublicKey)
    (sigs : List Signature) (cov : Coverage)
    (h : BuildCoverage Hash pub sigs = some cov) (k : Fin 256) :
    (arrBit cov.zeroUsed k = 1 ↔
      ∃ sig ∈ sigs, Hash (sig.Preimage k) = pub.ZeroHash k) ∧
    (arrBit cov.zeroUsed k = 1 → Hash (cov.zeroUsedSigs k) = pub.ZeroHash k) ∧
    (arrBit cov.oneUsed k = 1 ↔
      ∃ sig ∈ sigs, Hash (sig.Preimage k) = pub.OneHash k ∧
        Hash (sig.Preimage k) ≠ pub.ZeroHash k) ∧
    (arrBit cov.oneUsed k = 1 → Hash (cov.oneUsedSigs k) = pub.OneHash k) := by
  obtain ⟨hz, ho, hzc, hoc⟩ := BuildCoverage_covInv h k
  exact ⟨hz, hzc, ho, fun h1 => (hoc h1).1⟩

/-- Non-degenerate concrete world used by witnesses: the hash adds one to
every byte, the private halves are the all-0 and all-1 blocks. -/
def wHash : Block → Block := fun b => fun j => b j + 1

def wPri : PrivateKey :=
  { ZeroHash := fun _ => fun _ => 0, OneHash := fun _ => fun _ => 1 }

def wPub : PublicKey := GetPublicKey wHash wPri

/-- A signature revealing the zero preimage at every position. -/
def wSig0 : Signature := ⟨fun _ => zeroBlock⟩

/-- Degenerate concrete world used by counterexamples: a constant hash and a
public key whose two halves coincide everywhere, which a private key with
equal halves produces under any hash. -/
def cHash : Block → Block := fun _ => zeroBlock

def cPub : PublicKey := { ZeroHash := fun _ => zeroBlock, OneHash := fun _ => zeroBlock }

def cSig : Signature := ⟨fun _ => zeroBlock⟩

/-- The coverage state produced by folding one signature whose every block
matches the zero half: the zero side fully covered by the revealed all-zero
blocks, the one side untouched. -/
def cLit : Coverage :=
  { zeroUsed := fun _ => 0xff
    oneUsed := fun _ => 0
    zeroUsedSigs := fun _ => zeroBlock
    oneUsedSigs := fun _ => zeroBlock }

lemma eq_two_pow_sub_one_iff {x n : Nat} (hx : x < 2 ^ n) :
    x = 2 ^ n - 1 ↔ ∀ t, t < n → x.testBit t = true := by
  constructor
  · intro he t ht
    rw [he, Nat.testBit_two_pow_sub_one]
    exact decide_eq_true ht
  · intro hall
    apply Nat.eq_of_testBit_eq
    intro t
    rw [Nat.testBit_two_pow_sub_one]
    by_cases ht : t < n
    · rw [hall t ht]
      exact (decide_eq_true ht).symm
    · have hxt : x.testBit t = false :=
        Nat.testBit_lt_two_pow
          (lt_of_lt_of_le hx (Nat.pow_le_pow_right (by omega) (by omega)))
      rw [hxt]
      exact (decide_eq_false ht).symm

lemma coverList_success (Hash : Block → Block) (pub : PublicKey)
    (sig : Signature) (l : List (Fin 256)) :
    ∀ cov : Coverage,
      (∀ i ∈ l, pub.ZeroHash i = Hash (sig.Preimage i) ∨
        pub.OneHash i = Hash (sig.Preimage i)) →
      ∃ cov', l.foldlM (coverStep Hash pub sig) cov = some cov' := by
  induction l with
  | nil =>
      intro cov _
      exact ⟨cov, rfl⟩
  | cons a t ih =>
      intro cov h
      have hstep : ∃ c1, coverStep Hash pub sig cov a = some c1 := by
        by_cases h0 : pub.ZeroHash a = Hash (sig.Preimage a)
        · exact ⟨_, coverStep_zero h0⟩
        · rcases h a (List.mem_cons_self a t) with hz | h1
          · exact absurd hz h0
          · exact ⟨_, coverStep_one h1 h0⟩
      obtain ⟨c1, hc1⟩ := hstep
      obtain ⟨cov', hcov'⟩ := ih c1 (fun i hi => h i (List.mem_cons_of_mem a hi))
      refine ⟨cov', ?_⟩
      simp only [List.foldlM_cons, Option.bind_eq_bind, hc1, Option.some_bind]
      exact hcov'

/-- Folding a single signature whose every revealed block is the zero block
and matches the zero half of the key yields exactly `cLit`. -/
lemma build_single_zero_all (Hash : Block → Block) (pub : PublicKey)
    (sig : Signature)
    (hmatch : ∀ i : Fin 256, pub.ZeroHash i = Hash (sig.Preimage i))
    (hsig : ∀ i : Fin 256, sig.Preimage i = zeroBlock) :
    BuildCoverage Hash pub [sig] = some cLit := by
  obtain ⟨cov', hc⟩ := coverList_success Hash pub sig (List.finRange 256)
    initCoverage (fun i _ => Or.inl (hmatch i))
  have hc' : coverSig Hash pub initCoverage sig = some cov' := hc
  have hobs : ∀ k, stepObs Hash pub sig initCoverage cov' k :=
    fun k => coverSig_stepObs hc' k
  have hz1 : ∀ k, arrBit cov'.zeroUsed k = 1 := by
    intro k
    have h := hobs k
    rw [stepObs, if_pos (hmatch k)] at h
    exact h.1
  have hze : ∀ k, cov'.zeroUsedSigs k = sig.Preimage k := by
    intro k
    have h := hobs k
    rw [stepObs, if_pos (hmatch k)] at h
    exact h.2.2.1
  have ho0 : ∀ k, arrBit cov'.oneUsed k = arrBit initCoverage.oneUsed k := by
    intro k
    have h := hobs k
    rw [stepObs, if_pos (hmatch k)] at h
    exact h.2.1
  have hoe : ∀ k, cov'.oneUsedSigs k = initCoverage.oneUsedSigs k := by
    intro k
    have h := hobs k
    rw [stepObs, if_pos (hmatch k)] at h
    exact h.2.2.2
  have hlt : covLt cov' :=
    coverList_covLt Hash pub sig (List.finRange 256) initCoverage cov' hc
      initCoverage_covLt
  have hzu : cov'.zeroUsed = cLit.zeroUsed := by
    funext b
    show cov'.zeroUsed b = 0xff
    have h255 : (0xff : Nat) = 2 ^ 8 - 1 := by norm_num
    have h8 : cov'.zeroUsed b < 2 ^ 8 := by
      norm_num
      exact hlt.1 b
    rw [h255]
    apply (eq_two_pow_sub_one_iff h8).mpr
    intro t ht
    have h77 : (7 : Nat) - (7 - t) = t := by omega
    have hk := hz1 (bitPos b ⟨7 - t, by omega⟩)
    rw [arrBit_eq_one_iff, bitPos_byteIdx, bitPos_mod] at hk
    have hk' : (cov'.zeroUsed b).testBit (7 - (7 - t)) = true := hk
    rw [h77] at hk'
    exact hk'
  have hou : cov'.oneUsed = cLit.oneUsed := by
    funext b
    show cov'.oneUsed b = 0
    apply Nat.eq_of_testBit_eq
    intro t
    rw [Nat.zero_testBit]
    by_cases ht : t < 8
    · have h77 : (7 : Nat) - (7 - t) = t := by omega
      have hk := ho0 (bitPos b ⟨7 - t, by omega⟩)
      have hinit : arrBit initCoverage.oneUsed (bitPos b ⟨7 - t, by omega⟩) = 0 := by
        show (0 : Nat) >>> (7 - ((bitPos b ⟨7 - t, by omega⟩ : Fin 256) : Nat) % 8)
          &&& 1 = 0
        simp
      rw [hinit] at hk
      rw [arrBit_eq_zero_iff, bitPos_byteIdx, bitPos_mod] at hk
      have hk' : (cov'.oneUsed b).testBit (7 - (7 - t)) = false := hk
      rw [h77] at hk'
      exact hk'
    · have h8 : cov'.oneUsed b < 2 ^ 8 := by
        norm_num
        exact hlt.2 b
      exact Nat.testBit_lt_two_pow
        (lt_of_lt_of_le h8 (Nat.pow_le_pow_right (by omega) (by omega)))
  have hzs : cov'.zeroUsedSigs = cLit.zeroUsedSigs := by
    funext k
    rw [hze k, hsig k]
    rfl
  have hos : cov'.oneUsedSigs = cLit.oneUsedSigs := by
    funext k
    exact hoe k
  have hcl : cov' = cLit := by
    calc cov' = ⟨cov'.zeroUsed, cov'.oneUsed, cov'.zeroUsedSigs, cov'.oneUsedSigs⟩ :=
          rfl
      _ = cLit := by rw [hzu, hou, hzs, hos]
  rw [BuildCoverage]
  simp only [List.foldlM_cons, List.foldlM_nil, Option.bind_eq_bind,
    Option.pure_def]
  rw [hc']
  simp only [Option.some_bind]
  rw [hcl]

/-- The witness world's coverage build, computed by proof, not evaluation. -/
lemma wBuild : BuildCoverage wHash wPub [wSig0] = some cLit :=
  build_single_zero_all wHash wPub wSig0 (fun _ => rfl) (fun _ => rfl)

/-- The degenerate world's coverage build. -/
lemma cBuild : BuildCoverage cHash cPub [cSig] = some cLit :=
  build_single_zero_all cHash cPub cSig (fun _ => rfl) (fun _ => rfl)

theorem C4_witness :
    (arrBit cLit.zeroUsed 0 = 1 ↔
      ∃ sig ∈ [wSig0], wHash (sig.Preimage 0) = wPub.ZeroHash 0) ∧
    (arrBit cLit.zeroUsed 0 = 1 → wHash (cLit.zeroUsedSigs 0) = wPub.ZeroHash 0) ∧
    (arrBit cLit.oneUsed 0 = 1 ↔
      ∃ sig ∈ [wSig0], wHash (sig.Preimage 0) = wPub.OneHash 0 ∧
        wHash (sig.Preimage 0) ≠ wPub.ZeroHash 0) ∧
    (arrBit cLit.oneUsed 0 = 1 → wHash (cLit.oneUsedSigs 0) = wPub.OneHash 0) :=
  C4_coverage_characterisation wHash wPub [wSig0] cLit wBuild 0

/-- Claim C4 as stated is false: in this successfully built coverage the block
at position 0 hashes to `OneHash[0]`, yet the `oneUsed` bit is not set,
because the zero half is tested first and matched too. -/
theorem C4_counterexample :
    BuildCoverage cHash cPub [cSig] = some cLit ∧
    cHash (cSig.Preimage 0) = cPub.OneHash 0 ∧
    ¬ arrBit cLit.oneUsed 0 = 1 :=
  ⟨cBuild, rfl, by decide⟩

/-- Claim C7: folding one additional signature into an existing coverage state
never clears a bit already set in either bitmap. -/
theorem C7_monotonicity (Hash : Block → Block) (pub : PublicKey)
    (sigs : List Signature) (sig : Signature) (cov cov' : Coverage)
    (h1 : BuildCoverage Hash pub sigs = some cov)
    (h2 : BuildCoverage Hash pub (sigs ++ [sig]) = some cov') (k : Fin 256) :
    (arrBit cov.zeroUsed k = 1 → arrBit cov'.zeroUsed k = 1) ∧
    (arrBit cov.oneUsed k = 1 → arrBit cov'.oneUsed k = 1) := by
  rw [BuildCoverage] at h1 h2
  rw [List.foldlM_append, h1] at h2
  simp only [List.foldlM_cons, List.foldlM_nil, Option.bind_eq_bind,
    Option.some_bind, Option.bind_some] at h2
  rcases Option.bind_eq_some.mp h2 with ⟨c1, hc1, hp⟩
  have hcc : c1 = cov' := Option.some.inj hp
  subst hcc
  have so := coverSig_stepObs hc1 k
  rw [stepObs] at so
  split at so <;> [skip; split at so]
  · exact ⟨fun _ => so.1, fun h => so.2.1.trans h⟩
  · exact ⟨fun h => so.1.trans h, fun _ => so.2.1⟩
  · exact so.elim

theorem C7_witness :
    (arrBit initCoverage.zeroUsed 0 = 1 → arrBit cLit.zeroUsed 0 = 1) ∧
    (arrBit initCoverage.oneUsed 0 = 1 → arrBit cLit.oneUsed 0 = 1) :=
  C7_monotonicity wHash wPub [] wSig0 initCoverage cLit rfl wBuild 0

theorem C5_witness :
    BuildCoverage wHash cPub [wSig0] = none :=
  C5_mismatch_aborts wHash cPub [wSig0]
    ⟨wSig0, List.mem_singleton.mpr rfl, 0, by decide, by decide⟩

/-- The difficulty loop of `Forge`: for every byte of the two bitmaps, AND
them and count the zero bits of the result, MSB first. -/
def EstimateDifficulty (cov : Coverage) : Nat :=
  (List.finRange 32).foldl
    (fun d (i : Fin 32) =>
      (List.finRange 8).foldl
        (fun d (j : Fin 8) =>
          if (cov.zeroUsed i &&& cov.oneUsed i) >>> (7 - (j : Nat)) &&& 1 = 0
          then d + 1 else d)
        d)
    0

lemma diff_inner_eq_sum (cov : Coverage) (i : Fin 32) (l : List (Fin 8)) :
    ∀ d : Nat,
      l.foldl
        (fun d (j : Fin 8) =>
          if (cov.zeroUsed i &&& cov.oneUsed i) >>> (7 - (j : Nat)) &&& 1 = 0
          then d + 1 else d) d
      = d + (l.map fun (j : Fin 8) =>
          if (cov.zeroUsed i &&& cov.oneUsed i) >>> (7 - (j : Nat)) &&& 1 = 0
          then (1 : Nat) else 0).sum := by
  induction l with
  | nil =>
      intro d
      simp
  | cons a t ih =>
      intro d
      rw [List.foldl_cons, List.map_cons, List.sum_cons, ih]
      by_cases hp :
          (cov.zeroUsed i &&& cov.oneUsed i) >>> (7 - (a : Nat)) &&& 1 = 0
      · rw [if_pos hp, if_pos hp]
        omega
      · rw [if_neg hp, if_neg hp]
        omega

lemma diff_fold_eq_sum (cov : Coverage) (l : List (Fin 32)) :
    ∀ d : Nat,
      l.foldl
        (fun d (i : Fin 32) =>
          (List.finRange 8).foldl
            (fun d (j : Fin 8) =>
              if (cov.zeroUsed i &&& cov.oneUsed i) >>> (7 - (j : Nat)) &&& 1 = 0
              then d + 1 else d)
            d) d
      = d + (l.map fun (i : Fin 32) =>
          ((List.finRange 8).map fun (j : Fin 8) =>
            if (cov.zeroUsed i &&& cov.oneUsed i) >>> (7 - (j : Nat)) &&& 1 = 0
            then (1 : Nat) else 0).sum).sum := by
  induction l with
  | nil =>
      intro d
      simp
  | cons a t ih =>
      intro d
      rw [List.foldl_cons, List.map_cons, List.sum_cons, ih,
        diff_inner_eq_sum cov a]
      omega

lemma ED_eq_sum (cov : Coverage) :
    EstimateDifficulty cov
      = ∑ i : Fin 32, ∑ j : Fin 8,
          if (cov.zeroUsed i &&& cov.oneUsed i) >>> (7 - (j : Nat)) &&& 1 = 0
          then (1 : Nat) else 0 := by
  rw [EstimateDifficulty, diff_fold_eq_sum cov (List.finRange 32) 0,
    Fin.sum_univ_def]
  have hin : (fun i : Fin 32 => ∑ j : Fin 8,
      if (cov.zeroUsed i &&& cov.oneUsed i) >>> (7 - (j : Nat)) &&& 1 = 0
      then (1 : Nat) else 0)
    = fun i : Fin 32 => ((List.finRange 8).map fun (j : Fin 8) =>
        if (cov.zeroUsed i &&& cov.oneUsed i) >>> (7 - (j : Nat)) &&& 1 = 0
        then (1 : Nat) else 0).sum :=
    funext fun i => Fin.sum_univ_def _
  rw [hin, Nat.zero_add]

/-- The (byte, bit-offset) pair addressing of the 256 bit positions. -/
def posEquiv : Fin 32 × Fin 8 ≃ Fin 256 where
  toFun p := bitPos p.1 p.2
  invFun k := (byteIdx k, ⟨(k : Nat) % 8, Nat.mod_lt _ (by omega)⟩)
  left_inv := by
    intro p
    refine Prod.ext ?_ ?_
    · exact bitPos_byteIdx p.1 p.2
    · exact Fin.ext (bitPos_mod p.1 p.2)
  right_inv := byteIdx_bitPos_self

/-- Claim C8: `EstimateDifficulty` returns exactly the number of bit positions
not covered on both sides; it is 0 when every position is covered on both
sides and 256 when neither bitmap has any bit set. -/
theorem C8_difficulty_counts_uncovered (cov : Coverage) :
    (EstimateDifficulty cov
      = (Finset.univ.filter fun k : Fin 256 =>
          ¬(arrBit cov.zeroUsed k = 1 ∧ arrBit cov.oneUsed k = 1)).card) ∧
    ((∀ k : Fin 256, arrBit cov.zeroUsed k = 1 ∧ arrBit cov.oneUsed k = 1) →
      EstimateDifficulty cov = 0) ∧
    ((∀ k : Fin 256, arrBit cov.zeroUsed k = 0 ∧ arrBit cov.oneUsed k = 0) →
      EstimateDifficulty cov = 256) := by
  have hmain : EstimateDifficulty cov
      = (Finset.univ.filter fun k : Fin 256 =>
          ¬(arrBit cov.zeroUsed k = 1 ∧ arrBit cov.oneUsed k = 1)).card := by
    rw [ED_eq_sum, Finset.card_filter,
      ← Equiv.sum_comp posEquiv (fun k : Fin 256 =>
        if ¬(arrBit cov.zeroUsed k = 1 ∧ arrBit cov.oneUsed k = 1)
        then (1 : Nat) else 0),
      Fintype.sum_prod_type]
    refine Finset.sum_congr rfl fun i _ => Finset.sum_congr rfl fun j _ => ?_
    have hpe : posEquiv (i, j) = bitPos i j := rfl
    have hcond :
        ((cov.zeroUsed i &&& cov.oneUsed i) >>> (7 - (j : Nat)) &&& 1 = 0)
        ↔ ¬(arrBit cov.zeroUsed (posEquiv (i, j)) = 1 ∧
            arrBit cov.oneUsed (posEquiv (i, j)) = 1) := by
      rw [hpe, arrBit, arrBit, bitPos_byteIdx, bitPos_mod,
        shiftRight_and_one_eq_zero, Nat.testBit_and,
        shiftRight_and_one_eq_one, shiftRight_and_one_eq_one]
      cases (cov.zeroUsed i).testBit (7 - (j : Nat)) <;>
        cases (cov.oneUsed i).testBit (7 - (j : Nat)) <;> simp
    exact if_congr hcond rfl rfl
  refine ⟨hmain, fun hall => ?_, fun hnone => ?_⟩
  · rw [hmain]
    have hempty : (Finset.univ.filter fun k : Fin 256 =>
        ¬(arrBit cov.zeroUsed k = 1 ∧ arrBit cov.oneUsed k = 1)) = ∅ :=
      Finset.filter_eq_empty_iff.mpr fun k _ => not_not_intro (hall k)
    rw [hempty, Finset.card_empty]
  · rw [hmain]
    have huniv : (Finset.univ.filter fun k : Fin 256 =>
        ¬(arrBit cov.zeroUsed k = 1 ∧ arrBit cov.oneUsed k = 1))
        = Finset.univ :=
      Finset.filter_true_of_mem fun k _ => fun hc => by
        have h0 := (hnone k).1
        have h1 := hc.1
        omega
    rw [huniv, Finset.card_univ, Fintype.card_fin]

theorem C8_witness :
    (EstimateDifficulty initCoverage
      = (Finset.univ.filter fun k : Fin 256 =>
          ¬(arrBit initCoverage.zeroUsed k = 1 ∧
            arrBit initCoverage.oneUsed k = 1)).card) ∧
    EstimateDifficulty initCoverage = 256 :=
  ⟨(C8_difficulty_counts_uncovered initCoverage).1,
    (C8_difficulty_counts_uncovered initCoverage).2.2 (by decide)⟩

/-- The forgeability test of `Forge`: for every byte of the candidate message,
`(b AND oneUsed) OR (NOT b AND zeroUsed)` must equal `0xff` (Go's unary `^`
on a byte is XOR with `0xff`); any other byte makes the message unforgeable. -/
def isForgeable (msg : Message) (cov : Coverage) : Bool :=
  (List.finRange 32).all fun i =>
    decide ((msg i &&& cov.oneUsed i) |||
      ((msg i ^^^ 0xff) &&& cov.zeroUsed i) = 0xff)

lemma byte_cover_iff {b z o : Nat} (hz : z < 256) (ho : o < 256) :
    (b &&& o) ||| ((b ^^^ 0xff) &&& z) = 0xff ↔
      ∀ t, t < 8 →
        (if b.testBit t then o.testBit t = true else z.testBit t = true) := by
  have hz8 : z < 2 ^ 8 := by norm_num; exact hz
  have ho8 : o < 2 ^ 8 := by norm_num; exact ho
  have hlt : (b &&& o) ||| ((b ^^^ 0xff) &&& z) < 2 ^ 8 :=
    Nat.or_lt_two_pow (Nat.and_lt_two_pow b ho8) (Nat.and_lt_two_pow _ hz8)
  have h255 : (0xff : Nat) = 2 ^ 8 - 1 := by norm_num
  rw [h255, eq_two_pow_sub_one_iff (by rw [h255] at hlt; exact hlt)]
  refine forall_congr' fun t => ?_
  refine imp_congr_right fun ht => ?_
  rw [Nat.testBit_or, Nat.testBit_and, Nat.testBit_and, Nat.testBit_xor,
    Nat.testBit_two_pow_sub_one, decide_eq_true ht]
  cases hb : b.testBit t <;> simp

/-- The per-bit reading of `isForgeable`: every message bit must find its
matching bitmap bit set. -/
lemma isForgeable_iff {msg : Message} {cov : Coverage}
    (hz : ∀ b, cov.zeroUsed b < 256) (ho : ∀ b, cov.oneUsed b < 256) :
    isForgeable msg cov = true ↔
      ∀ k : Fin 256,
        if arrBit msg k = 0 then arrBit cov.zeroUsed k = 1
        else arrBit cov.oneUsed k = 1 := by
  rw [isForgeable, List.all_eq_true]
  constructor
  · intro h k
    have hi := h (byteIdx k) (List.mem_finRange _)
    rw [decide_eq_true_eq, byte_cover_iff (hz _) (ho _)] at hi
    have ht := hi (7 - (k : Nat) % 8) (by omega)
    by_cases hb : arrBit msg k = 0
    · rw [if_pos hb]
      rw [arrBit_eq_zero_iff] at hb
      rw [hb] at ht
      rw [if_neg (by simp)] at ht
      exact arrBit_eq_one_iff.mpr ht
    · rw [if_neg hb]
      have hb1 : arrBit msg k = 1 := by
        have := arrBit_lt_two msg k
        omega
      rw [arrBit_eq_one_iff] at hb1
      rw [hb1] at ht
      rw [if_pos rfl] at ht
      exact arrBit_eq_one_iff.mpr ht
  · intro h i _
    rw [decide_eq_true_eq, byte_cover_iff (hz _) (ho _)]
    intro t ht
    have hk := h (bitPos i ⟨7 - t, by omega⟩)
    have h77 : 7 - (7 - t) = t := by omega
    have harr : ∀ a : Message, arrBit a (bitPos i ⟨7 - t, by omega⟩)
        = a i >>> t &&& 1 := by
      intro a
      rw [arrBit, bitPos_byteIdx, bitPos_mod]
      show a i >>> (7 - (7 - t)) &&& 1 = a i >>> t &&& 1
      rw [h77]
    rw [harr, harr, harr] at hk
    by_cases hb : (msg i).testBit t
    · rw [if_pos hb]
      have hnot : ¬ (msg i >>> t &&& 1 = 0) := by
        rw [shiftRight_and_one_eq_zero, hb]
        simp
      rw [if_neg hnot] at hk
      exact shiftRight_and_one_eq_one.mp hk
    · rw [if_neg hb]
      have hyes : msg i >>> t &&& 1 = 0 := by
        rw [shiftRight_and_one_eq_zero]
        simpa using hb
      rw [if_pos hyes] at hk
      exact shiftRight_and_one_eq_one.mp hk

/-- Claim C6: the per-byte forgeability test is equivalent to the per-bit
definition, for byte-valued bitmaps. -/
theorem C6_per_byte_iff_per_bit (msg : Message) (cov : Coverage)
    (hz : ∀ b, cov.zeroUsed b < 256) (ho : ∀ b, cov.oneUsed b < 256) :
    isForgeable msg cov = true ↔
      ∀ k : Fin 256,
        (arrBit msg k = 0 → arrBit cov.zeroUsed k = 1) ∧
        (arrBit msg k = 1 → arrBit cov.oneUsed k = 1) := by
  rw [isForgeable_iff hz ho]
  refine forall_congr' fun k => ?_
  have h2 := arrBit_lt_two msg k
  by_cases hb : arrBit msg k = 0
  · rw [if_pos hb]
    constructor
    · intro h
      refine ⟨fun _ => h, fun h1 => ?_⟩
      omega
    · intro h
      exact h.1 hb
  · rw [if_neg hb]
    have hb1 : arrBit msg k = 1 := by omega
    constructor
    · intro h
      refine ⟨fun h0 => ?_, fun _ => h⟩
      omega
    · intro h
      exact h.2 hb1

/-- The all-zero message digest. -/
def mZero : Message := fun _ => 0

theorem C6_witness :
    isForgeable mZero initCoverage = true ↔
      ∀ k : Fin 256,
        (arrBit mZero k = 0 → arrBit initCoverage.zeroUsed k = 1) ∧
        (arrBit mZero k = 1 → arrBit initCoverage.oneUsed k = 1) :=
  C6_per_byte_iff_per_bit mZero initCoverage (by decide) (by decide)

/-- The assembly loop at the end of `Forge`: pick the cached zero- or
one-preimage at each position according to the candidate message bit
`message[i/8] >> (7 - i%8) & 0x01`. -/
def AssembleSignature (msg : Message) (cov : Coverage) : Signature :=
  Signature.mk fun i =>
    if msg (byteIdx i) >>> (7 - (i : Nat) % 8) &&& 1 = 0 then cov.zeroUsedSigs i
    else cov.oneUsedSigs i

/-- A signature drawn entirely from genuinely cached preimages: at every
position it is the cached zero- or one-preimage of a set bitmap bit. -/
def FromCached (cov : Coverage) (s : Signature) : Prop :=
  ∀ k : Fin 256,
    (arrBit cov.zeroUsed k = 1 ∧ s.Preimage k = cov.zeroUsedSigs k) ∨
    (arrBit cov.oneUsed k = 1 ∧ s.Preimage k = cov.oneUsedSigs k)

instance decFromCached (cov : Coverage) (s : Signature) :
    Decidable (FromCached cov s) :=
  inferInstanceAs (Decidable (∀ k : Fin 256,
    (arrBit cov.zeroUsed k = 1 ∧ s.Preimage k = cov.zeroUsedSigs k) ∨
    (arrBit cov.oneUsed k = 1 ∧ s.Preimage k = cov.oneUsedSigs k)))

/-- Claim C2 (amended): over a coverage state built from a public key whose two
halves differ at every position, a forgeable message's assembled signature
verifies, and for an unforgeable message no assembly drawn from the cached
preimages verifies. -/
theorem C2_forgeability_soundness (Hash : Block → Block) (pub : PublicKey)
    (sigs : List Signature) (cov : Coverage) (m : Message)
    (hnd : ∀ k : Fin 256, pub.ZeroHash k ≠ pub.OneHash k)
    (h : BuildCoverage Hash pub sigs = some cov) :
    (isForgeable m cov = true →
      Verify Hash m pub (AssembleSignature m cov) = true) ∧
    (isForgeable m cov = false →
      ∀ s : Signature, FromCached cov s → Verify Hash m pub s = false) := by
  have hlt := buildCoverage_covLt h
  have hinv := BuildCoverage_covInv h
  constructor
  · intro hf
    rw [Verify_eq_true_iff]
    intro k
    have hfk := (isForgeable_iff hlt.1 hlt.2).mp hf k
    obtain ⟨_, _, hzc, hoc⟩ := hinv k
    by_cases hb : arrBit m k = 0
    · rw [if_pos hb]
      rw [if_pos hb] at hfk
      have hassem : (AssembleSignature m cov).Preimage k = cov.zeroUsedSigs k := by
        show (if m (byteIdx k) >>> (7 - (k : Nat) % 8) &&& 1 = 0
          then cov.zeroUsedSigs k else cov.oneUsedSigs k) = cov.zeroUsedSigs k
        exact if_pos hb
      rw [hassem]
      exact hzc hfk
    · rw [if_neg hb]
      rw [if_neg hb] at hfk
      have hassem : (AssembleSignature m cov).Preimage k = cov.oneUsedSigs k := by
        show (if m (byteIdx k) >>> (7 - (k : Nat) % 8) &&& 1 = 0
          then cov.zeroUsedSigs k else cov.oneUsedSigs k) = cov.oneUsedSigs k
        exact if_neg hb
      rw [hassem]
      exact (hoc hfk).1
  · intro hnf s hs
    have hnall : ¬ ∀ k : Fin 256,
        (if arrBit m k = 0 then arrBit cov.zeroUsed k = 1
          else arrBit cov.oneUsed k = 1) := by
      intro hall
      have hh := (isForgeable_iff hlt.1 hlt.2).mpr hall
      rw [hnf] at hh
      exact Bool.false_ne_true hh
    push_neg at hnall
    obtain ⟨k, hk⟩ := hnall
    cases hv : Verify Hash m pub s with
    | false => rfl
    | true =>
        exfalso
        have hvk := (Verify_eq_true_iff Hash m pub s).mp hv k
        obtain ⟨_, _, hzc, hoc⟩ := hinv k
        by_cases hb : arrBit m k = 0
        · rw [if_pos hb] at hvk hk
          rcases hs k with ⟨hz1, hsp⟩ | ⟨ho1, hsp⟩
          · exact hk hz1
          · rw [hsp] at hvk
            exact (hoc ho1).2 hvk
        · rw [if_neg hb] at hvk hk
          rcases hs k with ⟨hz1, hsp⟩ | ⟨ho1, hsp⟩
          · rw [hsp] at hvk
            exact hnd k ((hzc hz1).symm.trans hvk)
          · exact hk ho1

theorem C2_witness :
    (isForgeable mZero cLit = true →
      Verify wHash mZero wPub (AssembleSignature mZero cLit) = true) ∧
    (isForgeable mZero cLit = false →
      ∀ s : Signature, FromCached cLit s → Verify wHash mZero wPub s = false) :=
  C2_forgeability_soundness wHash wPub [wSig0] cLit mZero (by decide) wBuild

/-- The all-ones message digest, unforgeable from zero-side-only coverage. -/
def cM : Message := fun _ => 0xff

/-- Claim C2 as stated is false: with a degenerate key whose halves coincide,
the signature drawn from the cached zero preimages verifies for an unforgeable
message. -/
theorem C2_counterexample :
    BuildCoverage cHash cPub [cSig] = some cLit ∧
    isForgeable cM cLit = false ∧
    FromCached cLit cSig ∧
    Verify cHash cM cPub cSig = true :=
  ⟨cBuild, by decide, by decide, by decide⟩

/-- Claim C9 (amended): over a key pair whose derived public halves differ at
every position, a signature for `m` fails to verify for any other message that
is not forgeable from the coverage built from that single signature. -/
theorem C9_non_reuse_soundness (Hash : Block → Block) (pri : PrivateKey)
    (m m' : Message) (cov : Coverage)
    (hnd : ∀ k : Fin 256, Hash (pri.ZeroHash k) ≠ Hash (pri.OneHash k))
    (hb : BuildCoverage Hash (GetPublicKey Hash pri) [Sign m pri] = some cov)
    (hne : m' ≠ m) (hnf : isForgeable m' cov = false) :
    Verify Hash m' (GetPublicKey Hash pri) (Sign m pri) = false := by
  have hlt := buildCoverage_covLt hb
  have hinv := BuildCoverage_covInv hb
  have hchar : ∀ k : Fin 256,
      (arrBit cov.zeroUsed k = 1 ↔ arrBit m k = 0) ∧
      (arrBit cov.oneUsed k = 1 ↔ ¬ arrBit m k = 0) := by
    intro k
    obtain ⟨hz, ho, _, _⟩ := hinv k
    have hsp : (Sign m pri).Preimage k = signVal m pri k := Sign_apply m pri k
    constructor
    · rw [hz]
      constructor
      · rintro ⟨s', hs', hp⟩
        have hss : s' = Sign m pri := List.mem_singleton.mp hs'
        subst hss
        rw [hsp] at hp
        by_contra hbm
        have hv1 : signVal m pri k = pri.OneHash k := by
          rw [signVal]
          exact if_neg hbm
        rw [hv1] at hp
        exact hnd k hp.symm
      · intro hbm
        refine ⟨Sign m pri, List.mem_singleton.mpr rfl, ?_⟩
        rw [hsp]
        have hv0 : signVal m pri k = pri.ZeroHash k := by
          rw [signVal]
          exact if_pos hbm
        rw [hv0]
        rfl
    · rw [ho]
      constructor
      · rintro ⟨s', hs', hp, hnp⟩
        have hss : s' = Sign m pri := List.mem_singleton.mp hs'
        subst hss
        rw [hsp] at hp
        intro hbm
        have hv0 : signVal m pri k = pri.ZeroHash k := by
          rw [signVal]
          exact if_pos hbm
        rw [hv0] at hp
        exact hnd k hp
      · intro hbm
        refine ⟨Sign m pri, List.mem_singleton.mpr rfl, ?_, ?_⟩
        · rw [hsp]
          have hv1 : signVal m pri k = pri.OneHash k := by
            rw [signVal]
            exact if_neg hbm
          rw [hv1]
          rfl
        · rw [hsp]
          have hv1 : signVal m pri k = pri.OneHash k := by
            rw [signVal]
            exact if_neg hbm
          rw [hv1]
          exact fun he => hnd k he.symm
  have hnall : ¬ ∀ k : Fin 256,
      (if arrBit m' k = 0 then arrBit cov.zeroUsed k = 1
        else arrBit cov.oneUsed k = 1) := by
    intro hall
    have hh := (isForgeable_iff hlt.1 hlt.2).mpr hall
    rw [hnf] at hh
    exact Bool.false_ne_true hh
  push_neg at hnall
  obtain ⟨k, hk⟩ := hnall
  cases hv : Verify Hash m' (GetPublicKey Hash pri) (Sign m pri) with
  | false => rfl
  | true =>
      exfalso
      have hvk := (Verify_eq_true_iff Hash m' (GetPublicKey Hash pri)
        (Sign m pri)).mp hv k
      have hsp : (Sign m pri).Preimage k = signVal m pri k := Sign_apply m pri k
      by_cases hbm' : arrBit m' k = 0
      · rw [if_pos hbm'] at hvk hk
        have hm1 : ¬ arrBit m k = 0 := fun h0 => hk ((hchar k).1.mpr h0)
        have hv1 : signVal m pri k = pri.OneHash k := by
          rw [signVal]
          exact if_neg hm1
        rw [hsp, hv1] at hvk
        exact hnd k hvk.symm
      · rw [if_neg hbm'] at hvk hk
        have hm0 : arrBit m k = 0 := by
          by_contra hmm
          exact hk ((hchar k).2.mpr hmm)
        have hv0 : signVal m pri k = pri.ZeroHash k := by
          rw [signVal]
          exact if_pos hm0
        rw [hsp, hv0] at hvk
        exact hnd k hvk

/-- A message whose only set bit is bit 0 (byte 0 is `0x80`). -/
def mTop : Message := fun b => if b = 0 then 0x80 else 0

lemma wSig_eq : Sign mZero wPri = wSig0 := by
  have hp : (Sign mZero wPri).Preimage = wSig0.Preimage := by
    funext k
    rw [Sign_apply, signVal]
    have hc : mZero (byteIdx k) >>> (7 - (k : Nat) % 8) &&& 1 = 0 := by
      simp [mZero]
    rw [if_pos hc]
    rfl
  calc Sign mZero wPri = ⟨(Sign mZero wPri).Preimage⟩ := rfl
    _ = wSig0 := by rw [hp]

theorem C9_witness :
    Verify wHash mTop (GetPublicKey wHash wPri) (Sign mZero wPri) = false :=
  C9_non_reuse_soundness wHash wPri mZero mTop cLit (by decide)
    (by rw [wSig_eq]; exact wBuild) (by decide) (by decide)

/-- A degenerate private key revealing the same preimage for both bit values. -/
def dPri : PrivateKey :=
  { ZeroHash := fun _ => zeroBlock, OneHash := fun _ => zeroBlock }

lemma dSig_eq : Sign mZero dPri = cSig := by
  have hp : (Sign mZero dPri).Preimage = cSig.Preimage := by
    funext k
    rw [Sign_apply, signVal]
    have hc : mZero (byteIdx k) >>> (7 - (k : Nat) % 8) &&& 1 = 0 := by
      simp [mZero]
    rw [if_pos hc]
    rfl
  calc Sign mZero dPri = ⟨(Sign mZero dPri).Preimage⟩ := rfl
    _ = cSig := by rw [hp]

/-- Claim C9 as stated is false: with equal private halves the signature for
the all-zero message verifies for a different, unforgeable message. -/
theorem C9_counterexample :
    BuildCoverage cHash (GetPublicKey cHash dPri) [Sign mZero dPri] = some cLit ∧
    mTop ≠ mZero ∧
    isForgeable mTop cLit = false ∧
    Verify cHash mTop (GetPublicKey cHash dPri) (Sign mZero dPri) = true := by
  refine ⟨?_, by decide, by decide, ?_⟩
  · rw [dSig_eq]
    exact cBuild
  · rw [dSig_eq]
    decide

/-- `BlockFromByteSlice` from the source: `copy(bl[:], by)` into the zero-value
block copies byte `j` of the slice for every `j` below both 32 and the slice
length; other bytes stay zero, surplus slice bytes are ignored, and no error
is ever reported (the function is total). -/
def BlockFromByteSlice (bs : List Nat) : Block :=
  (List.finRange 32).foldl
    (fun bl (j : Fin 32) =>
      if h : (j : Nat) < bs.length then Function.update bl j (bs.get ⟨j, h⟩)
      else bl)
    (fun _ => 0)

lemma bfbs_not_mem (bs : List Nat) (l : List (Fin 32)) :
    ∀ (bl : Block) (j : Fin 32), j ∉ l →
      (l.foldl
        (fun bl (j : Fin 32) =>
          if h : (j : Nat) < bs.length then Function.update bl j (bs.get ⟨j, h⟩)
          else bl)
        bl) j = bl j := by
  induction l with
  | nil =>
      intro bl j _
      rfl
  | cons a t ih =>
      intro bl j hj
      rw [List.foldl_cons, ih _ j (fun h => hj (List.mem_cons_of_mem a h))]
      by_cases h : (a : Nat) < bs.length
      · rw [dif_pos h]
        exact Function.update_noteq
          (fun he => hj (by rw [he]; exact List.mem_cons_self a t)) _ _
      · rw [dif_neg h]

lemma bfbs_mem (bs : List Nat) (l : List (Fin 32)) :
    ∀ (bl : Block) (j : Fin 32), l.Nodup → j ∈ l →
      (l.foldl
        (fun bl (j : Fin 32) =>
          if h : (j : Nat) < bs.length then Function.update bl j (bs.get ⟨j, h⟩)
          else bl)
        bl) j
      = if h : (j : Nat) < bs.length then bs.get ⟨j, h⟩ else bl j := by
  induction l with
  | nil =>
      intro _ j _ hj
      cases hj
  | cons a t ih =>
      intro bl j hnd hj
      rcases List.mem_cons.mp hj with rfl | hjt
      · rw [List.foldl_cons,
          bfbs_not_mem bs t _ j (List.nodup_cons.mp hnd).1]
        by_cases h : (j : Nat) < bs.length
        · rw [dif_pos h, dif_pos h, Function.update_same]
        · rw [dif_neg h, dif_neg h]
      · have hja : j ≠ a := fun he => (List.nodup_cons.mp hnd).1 (he ▸ hjt)
        rw [List.foldl_cons, ih _ j (List.nodup_cons.mp hnd).2 hjt]
        by_cases hjl : (j : Nat) < bs.length
        · rw [dif_pos hjl, dif_pos hjl]
        · rw [dif_neg hjl, dif_neg hjl]
          by_cases h : (a : Nat) < bs.length
          · rw [dif_pos h]
            exact Function.update_noteq hja _ _
          · rw [dif_neg h]

/-- Claim C10: `BlockFromByteSlice` is total and never reports an error: byte
`j` of the result is slice byte `j` when the slice is long enough and zero
otherwise (zero padding for short slices), and bytes of the slice beyond
index 31 are silently discarded. -/
theorem C10_block_from_byte_slice (bs : List Nat) :
    (∀ j : Fin 32, BlockFromByteSlice bs j =
      if h : (j : Nat) < bs.length then bs.get ⟨j, h⟩ else 0) ∧
    BlockFromByteSlice bs = BlockFromByteSlice (bs.take 32) := by
  have hmain : ∀ (bs : List Nat) (j : Fin 32), BlockFromByteSlice bs j =
      if h : (j : Nat) < bs.length then bs.get ⟨j, h⟩ else 0 := by
    intro bs j
    rw [BlockFromByteSlice]
    exact bfbs_mem bs (List.finRange 32) _ j (List.nodup_finRange 32)
      (List.mem_finRange j)
  refine ⟨hmain bs, funext fun j => ?_⟩
  rw [hmain bs j, hmain (bs.take 32) j]
  by_cases h : (j : Nat) < bs.length
  · have h2 : (j : Nat) < (bs.take 32).length := by
      rw [List.length_take]
      have := j.isLt
      omega
    rw [dif_pos h, dif_pos h2]
    exact List.get_take bs h j.isLt
  · have h2 : ¬ (j : Nat) < (bs.take 32).length := by
      rw [List.length_take]
      omega
    rw [dif_neg h, dif_neg h2]

end LamportSig
